import Mathlib

/-!
Verification of the todo-app core (src/todo-app/src/App.tsx).

The app keeps an in-memory list of todos and mirrors it to a single
localStorage slot.  We embed the task record, the four store operations
(addTodo, toggleTodo, deleteTodo, editTodo), the derived counts, and the
persistence bridge (JSON.stringify on save, JSON.parse on load, with the
removeItem-on-parse-error fallback) as executable Lean definitions, and
prove the behavioural properties of the specification against them.
-/

/-- A task record, mirroring the `Todo` interface of App.tsx:
id is the numeric `Date.now()` timestamp, `createdAt` the ISO string. -/
structure Todo where
  id : Nat
  text : String
  completed : Bool
  createdAt : String
deriving DecidableEq

/-- The `addTodo` handler: a no-op when the input string is falsy (empty),
otherwise appends a fresh record with `completed := false`.  The ambient
clock values `now` (for `Date.now()`) and `nowIso` (for
`new Date().toISOString()`) are passed explicitly. -/
def addTodo (todos : List Todo) (inputValue : String) (now : Nat) (nowIso : String) :
    List Todo :=
  if inputValue = "" then todos
  else todos ++ [{ id := now, text := inputValue, completed := false, createdAt := nowIso }]

/-- The `toggleTodo` handler: maps over the list, flipping `completed` on
every record whose id matches. -/
def toggleTodo (todos : List Todo) (id : Nat) : List Todo :=
  todos.map (fun todo => if todo.id = id then { todo with completed := !todo.completed } else todo)

/-- The `deleteTodo` handler: keeps exactly the records whose id differs. -/
def deleteTodo (todos : List Todo) (id : Nat) : List Todo :=
  todos.filter (fun todo => todo.id != id)

/-- The `editTodo` handler: maps over the list, replacing `text` on every
record whose id matches. -/
def editTodo (todos : List Todo) (id : Nat) (newText : String) : List Todo :=
  todos.map (fun todo => if todo.id = id then { todo with text := newText } else todo)

/-- The derived `completedCount` of App.tsx. -/
def completedCount (todos : List Todo) : Nat :=
  (todos.filter (fun todo => todo.completed)).length

/-- The derived `totalCount` of App.tsx. -/
def totalCount (todos : List Todo) : Nat :=
  todos.length

/-- The "Remaining" statistic rendered by App.tsx as
`totalCount - completedCount`. -/
def remainingCount (todos : List Todo) : Nat :=
  totalCount todos - completedCount todos

/-- One user-level store operation, data for the reachability arguments.
An `add` carries the two clock readings taken at that moment. -/
inductive Op where
  | add (text : String) (now : Nat) (nowIso : String)
  | toggle (id : Nat)
  | delete (id : Nat)
  | edit (id : Nat) (newText : String)
deriving DecidableEq

/-- Interpret one operation on a store state. -/
def applyOp (todos : List Todo) : Op → List Todo
  | .add text now nowIso => addTodo todos text now nowIso
  | .toggle id => toggleTodo todos id
  | .delete id => deleteTodo todos id
  | .edit id newText => editTodo todos id newText

/-- Run a sequence of operations from the empty initial store. -/
def runOps (ops : List Op) : List Todo :=
  ops.foldl applyOp []

/-- The `Date.now()` readings of the effective (non-empty-text) adds of a
sequence, in order: these are exactly the ids handed out. -/
def addNows : List Op → List Nat
  | [] => []
  | .add text now _ :: ops => if text = "" then addNows ops else now :: addNows ops
  | _ :: ops => addNows ops

/-- The list of ids of a store state. -/
def idsOf (todos : List Todo) : List Nat :=
  todos.map (fun todo => todo.id)

/-- Identity on task records, named to avoid the `id` binder shadowing. -/
def todo_same (t : Todo) : Todo := t

theorem map_todo_same (todos : List Todo) : todos.map todo_same = todos := by
  have h : ∀ t ∈ todos, todo_same t = t := fun t _ => rfl
  rw [List.map_congr_left h]
  simp

/- Basic store lemmas. -/

theorem toggleTodo_idsOf (todos : List Todo) (id : Nat) :
    idsOf (toggleTodo todos id) = idsOf todos := by
  simp only [idsOf, toggleTodo, List.map_map]
  apply List.map_congr_left
  intro t _
  by_cases h : t.id = id <;> simp [h]

theorem editTodo_idsOf (todos : List Todo) (id : Nat) (newText : String) :
    idsOf (editTodo todos id newText) = idsOf todos := by
  simp only [idsOf, editTodo, List.map_map]
  apply List.map_congr_left
  intro t _
  by_cases h : t.id = id <;> simp [h]

theorem deleteTodo_sublist (todos : List Todo) (id : Nat) :
    List.Sublist (deleteTodo todos id) todos :=
  List.filter_sublist todos

theorem toggleTodo_length (todos : List Todo) (id : Nat) :
    (toggleTodo todos id).length = todos.length := by
  simp [toggleTodo]

theorem editTodo_length (todos : List Todo) (id : Nat) (newText : String) :
    (editTodo todos id newText).length = todos.length := by
  simp [editTodo]

theorem toggleTodo_involutive (todos : List Todo) (id : Nat) :
    toggleTodo (toggleTodo todos id) id = todos := by
  simp only [toggleTodo, List.map_map]
  have : ∀ t ∈ todos,
      ((fun todo => if todo.id = id then { todo with completed := !todo.completed } else todo) ∘
        (fun todo => if todo.id = id then { todo with completed := !todo.completed } else todo)) t
        = todo_same t := by
    intro t _
    obtain ⟨i, tx, c, ca⟩ := t
    by_cases h : i = id
    · simp [Function.comp, h, todo_same]
    · simp [Function.comp, h, todo_same]
  rw [List.map_congr_left this, map_todo_same]

theorem toggleTodo_not_mem (todos : List Todo) (id : Nat)
    (h : ∀ t ∈ todos, t.id ≠ id) : toggleTodo todos id = todos := by
  simp only [toggleTodo]
  have : ∀ t ∈ todos,
      (if t.id = id then { t with completed := !t.completed } else t) = todo_same t := by
    intro t ht
    simp [h t ht, todo_same]
  rw [List.map_congr_left this, map_todo_same]

theorem editTodo_not_mem (todos : List Todo) (id : Nat) (newText : String)
    (h : ∀ t ∈ todos, t.id ≠ id) : editTodo todos id newText = todos := by
  simp only [editTodo]
  have : ∀ t ∈ todos,
      (if t.id = id then { t with text := newText } else t) = todo_same t := by
    intro t ht
    simp [h t ht, todo_same]
  rw [List.map_congr_left this, map_todo_same]

theorem deleteTodo_not_mem (todos : List Todo) (id : Nat)
    (h : ∀ t ∈ todos, t.id ≠ id) : deleteTodo todos id = todos := by
  simp only [deleteTodo]
  apply List.filter_eq_self.mpr
  intro t ht
  simp [h t ht]

theorem deleteTodo_length (todos : List Todo) (id : Nat) :
    (deleteTodo todos id).length
      + (todos.filter (fun todo => todo.id == id)).length = todos.length := by
  induction todos with
  | nil => simp [deleteTodo]
  | cons t ts ih =>
    by_cases h : t.id = id
    · simp only [deleteTodo, List.filter_cons] at ih ⊢
      simp [h] at ih ⊢
      omega
    · simp only [deleteTodo, List.filter_cons] at ih ⊢
      simp [h] at ih ⊢
      omega

/-!
Persistence bridge model.

`save` runs `JSON.stringify` on the todo array and overwrites the single
localStorage slot; `load` reads the slot, returns the initial empty array
when the slot is absent or its content falsy (the empty string), and
otherwise runs `JSON.parse`, deleting the slot and keeping the empty
array when parsing throws.  We model the relevant fragment of
`JSON.stringify` and `JSON.parse` character by character: serialization
of the todo array with the exact escaping rules of `JSON.stringify`, and
a fuel-indexed recursive-descent parser for JSON values (numbers kept as
their lexemes, since the code never re-interprets them numerically).
-/

/-- The decimal digit character for a value below ten. -/
def digitChar (d : Nat) : Char := Char.ofNat (48 + d)

/-- Decimal digits of a number, most significant first, consed onto
`tail`; this is how `JSON.stringify` prints the integer `Date.now()`. -/
def natToCharsAux (n : Nat) (tail : List Char) : List Char :=
  if n < 10 then digitChar n :: tail
  else natToCharsAux (n / 10) (digitChar (n % 10) :: tail)
decreasing_by exact Nat.div_lt_self (by omega) (by omega)

/-- Decimal representation of a natural number. -/
def natToChars (n : Nat) : List Char := natToCharsAux n []

/-- Decimal representation as a string. -/
def natStr (n : Nat) : String := String.mk (natToChars n)

/-- Lower-case hexadecimal digit character, as used by the `\u00xx`
escapes that `JSON.stringify` emits for control characters. -/
def hexDigitChar (d : Nat) : Char :=
  if d < 10 then Char.ofNat (48 + d) else Char.ofNat (87 + d)

/-- The escape sequence `JSON.stringify` emits for one character of a
string value: quote and backslash are backslash-escaped, the named
control characters use their short escapes, the remaining control
characters use `\u00xx`, and every other character is copied verbatim. -/
def escapeChar (c : Char) : List Char :=
  if c = '"' then ['\\', '"']
  else if c = '\\' then ['\\', '\\']
  else if c = '\x08' then ['\\', 'b']
  else if c = '\x09' then ['\\', 't']
  else if c = '\x0a' then ['\\', 'n']
  else if c = '\x0c' then ['\\', 'f']
  else if c = '\x0d' then ['\\', 'r']
  else if c.toNat < 32 then
    ['\\', 'u', '0', '0', hexDigitChar (c.toNat / 16), hexDigitChar (c.toNat % 16)]
  else [c]

/-- Escape every character of a string body. -/
def escString : List Char → List Char
  | [] => []
  | c :: cs => escapeChar c ++ escString cs

/-- A serialized JSON string: quoted, with the body escaped. -/
def serializeStringChars (s : String) : List Char :=
  '"' :: (escString s.data ++ ['"'])

/-- The characters of the literal `true`. -/
def trueChars : List Char := ['t', 'r', 'u', 'e']

/-- The characters of the literal `false`. -/
def falseChars : List Char := ['f', 'a', 'l', 's', 'e']

/-- `JSON.stringify` of one todo record: an object literal whose members
appear in the declaration order of the `Todo` interface. -/
def serializeTodo (t : Todo) : List Char :=
  ['\x7b'] ++ serializeStringChars "id" ++ [':'] ++ natToChars t.id ++ [','] ++
    serializeStringChars "text" ++ [':'] ++ serializeStringChars t.text ++ [','] ++
    serializeStringChars "completed" ++ [':'] ++
      (if t.completed then trueChars else falseChars) ++ [','] ++
    serializeStringChars "createdAt" ++ [':'] ++ serializeStringChars t.createdAt ++ ['\x7d']

/-- Comma-separated continuation of an array body: `,t` for each
remaining element. -/
def serializeTodosAux : List Todo → List Char
  | [] => []
  | t :: ts => [','] ++ serializeTodo t ++ serializeTodosAux ts

/-- `JSON.stringify` of the whole todo array. -/
def serializeTodos : List Todo → List Char
  | [] => ['[', ']']
  | t :: ts => ['['] ++ serializeTodo t ++ serializeTodosAux ts ++ [']']

/-- The string written to the `todos` slot by the save effect. -/
def saveString (ts : List Todo) : String := String.mk (serializeTodos ts)

/-- The save effect: serialize the full collection and overwrite the
single persisted slot (modelled as `Option String`, `none` = absent). -/
def save (ts : List Todo) : Option String := some (saveString ts)

/-- A parsed JSON value.  Numbers are kept as their source lexemes: the
app never interprets them arithmetically, it only stores the parsed
value, so the syntactic representation is the faithful model. -/
inductive Json where
  | null
  | bool (b : Bool)
  | num (lexeme : String)
  | str (s : String)
  | arr (elems : List Json)
  | obj (members : List (String × Json))

/-- The JSON value `JSON.stringify`/`JSON.parse` exchange for one todo. -/
def todoToJson (t : Todo) : Json :=
  Json.obj [("id", Json.num (natStr t.id)), ("text", Json.str t.text),
    ("completed", Json.bool t.completed), ("createdAt", Json.str t.createdAt)]

/-- The JSON value exchanged for the whole collection. -/
def todosToJson (ts : List Todo) : Json :=
  Json.arr (ts.map todoToJson)

/-- Skip the JSON whitespace characters (space, tab, line feed,
carriage return). -/
def skipWs : List Char → List Char
  | c :: cs => if c = ' ' ∨ c = '\x09' ∨ c = '\x0a' ∨ c = '\x0d' then skipWs cs else c :: cs
  | [] => []

/-- Value of one hexadecimal digit, as accepted in `\uXXXX` escapes. -/
def parseHex (c : Char) : Option Nat :=
  if '0' ≤ c ∧ c ≤ '9' then some (c.toNat - 48)
  else if 'a' ≤ c ∧ c ≤ 'f' then some (c.toNat - 87)
  else if 'A' ≤ c ∧ c ≤ 'F' then some (c.toNat - 55)
  else none

/-- Parse the body of a JSON string after the opening quote, with the
accumulated characters in reverse; raw control characters are rejected
and the standard escapes are decoded, exactly as `JSON.parse` does. -/
def parseStringBody : List Char → List Char → Option (String × List Char)
  | [], _ => none
  | c :: cs, acc =>
    if c = '"' then some (String.mk acc.reverse, cs)
    else if c = '\\' then
      match cs with
      | [] => none
      | e :: cs1 =>
        if e = '"' then parseStringBody cs1 ('"' :: acc)
        else if e = '\\' then parseStringBody cs1 ('\\' :: acc)
        else if e = '/' then parseStringBody cs1 ('/' :: acc)
        else if e = 'b' then parseStringBody cs1 ('\x08' :: acc)
        else if e = 'f' then parseStringBody cs1 ('\x0c' :: acc)
        else if e = 'n' then parseStringBody cs1 ('\x0a' :: acc)
        else if e = 'r' then parseStringBody cs1 ('\x0d' :: acc)
        else if e = 't' then parseStringBody cs1 ('\x09' :: acc)
        else if e = 'u' then
          match cs1 with
          | h1 :: h2 :: h3 :: h4 :: cs2 =>
            match parseHex h1, parseHex h2, parseHex h3, parseHex h4 with
            | some a, some b, some c2, some d =>
              parseStringBody cs2 (Char.ofNat (((a * 16 + b) * 16 + c2) * 16 + d) :: acc)
            | _, _, _, _ => none
          | _ => none
        else none
    else if c.toNat < 32 then none
    else parseStringBody cs (c :: acc)

/-- Take the maximal leading run of decimal digits. -/
def takeDigits : List Char → List Char × List Char
  | [] => ([], [])
  | c :: cs =>
    if c.isDigit then
      let p := takeDigits cs
      (c :: p.1, p.2)
    else ([], c :: cs)

/-- Integer part of a JSON number: a single `0`, or a nonzero digit
followed by further digits. -/
def parseIntPart : List Char → Option (List Char × List Char)
  | [] => none
  | c :: cs =>
    if c = '0' then some ([c], cs)
    else if c.isDigit then
      let p := takeDigits cs
      some (c :: p.1, p.2)
    else none

/-- Optional fractional part: a dot must be followed by at least one
digit, otherwise the whole number is malformed. -/
def parseFracOpt : List Char → Option (List Char × List Char)
  | '.' :: cs =>
    match takeDigits cs with
    | ([], _) => none
    | (ds, r) => some ('.' :: ds, r)
  | l => some ([], l)

/-- Optional exponent part: `e`/`E`, an optional sign, then at least one
digit. -/
def parseExpOpt : List Char → Option (List Char × List Char)
  | [] => some ([], [])
  | c :: cs =>
    if c = 'e' ∨ c = 'E' then
      match cs with
      | s :: cs1 =>
        if s = '+' ∨ s = '-' then
          match takeDigits cs1 with
          | ([], _) => none
          | (ds, r) => some (c :: s :: ds, r)
        else
          match takeDigits cs with
          | ([], _) => none
          | (ds, r) => some (c :: ds, r)
      | [] => none
    else some ([], c :: cs)

/-- Optional leading minus sign of a JSON number. -/
def parseSignOpt : List Char → List Char × List Char
  | '-' :: cs => (['-'], cs)
  | l => ([], l)

/-- Lexeme of a JSON number (optional minus sign, integer part,
optional fraction, optional exponent), returned with the rest of the
input. -/
def parseNumber (l : List Char) : Option (List Char × List Char) :=
  match parseIntPart (parseSignOpt l).2 with
  | none => none
  | some (ip, l2) =>
    match parseFracOpt l2 with
    | none => none
    | some (fp, l3) =>
      match parseExpOpt l3 with
      | none => none
      | some (ep, l4) => some ((parseSignOpt l).1 ++ ip ++ fp ++ ep, l4)

mutual

/-- Fuel-indexed recursive-descent parser for one JSON value; the fuel
only bounds the recursion depth and loop length, it is not part of the
grammar. -/
def parseValue : Nat → List Char → Option (Json × List Char)
  | 0, _ => none
  | fuel + 1, l =>
    match skipWs l with
    | [] => none
    | c :: cs =>
      if c = 'n' then
        match cs with
        | 'u' :: 'l' :: 'l' :: r => some (Json.null, r)
        | _ => none
      else if c = 't' then
        match cs with
        | 'r' :: 'u' :: 'e' :: r => some (Json.bool true, r)
        | _ => none
      else if c = 'f' then
        match cs with
        | 'a' :: 'l' :: 's' :: 'e' :: r => some (Json.bool false, r)
        | _ => none
      else if c = '"' then
        match parseStringBody cs [] with
        | some (s, r) => some (Json.str s, r)
        | none => none
      else if c = '[' then
        match skipWs cs with
        | ']' :: r => some (Json.arr [], r)
        | l1 => parseElems fuel l1 []
      else if c = '\x7b' then
        match skipWs cs with
        | '\x7d' :: r => some (Json.obj [], r)
        | l1 => parseMembers fuel l1 []
      else if c = '-' ∨ c.isDigit then
        match parseNumber (c :: cs) with
        | some (lex, r) => some (Json.num (String.mk lex), r)
        | none => none
      else none

/-- Parse the elements of a non-empty array body, accumulator reversed. -/
def parseElems : Nat → List Char → List Json → Option (Json × List Char)
  | 0, _, _ => none
  | fuel + 1, l, acc =>
    match parseValue fuel l with
    | none => none
    | some (j, r) =>
      match skipWs r with
      | ',' :: r1 => parseElems fuel r1 (j :: acc)
      | ']' :: r1 => some (Json.arr (j :: acc).reverse, r1)
      | _ => none

/-- Parse the members of a non-empty object body, accumulator reversed. -/
def parseMembers : Nat → List Char → List (String × Json) → Option (Json × List Char)
  | 0, _, _ => none
  | fuel + 1, l, acc =>
    match skipWs l with
    | '"' :: cs =>
      match parseStringBody cs [] with
      | none => none
      | some (k, r) =>
        match skipWs r with
        | ':' :: r1 =>
          match parseValue fuel r1 with
          | none => none
          | some (v, r2) =>
            match skipWs r2 with
            | ',' :: r3 => parseMembers fuel r3 ((k, v) :: acc)
            | '\x7d' :: r3 => some (Json.obj ((k, v) :: acc).reverse, r3)
            | _ => none
        | _ => none
    | _ => none

end

/-- `JSON.parse` on a character list: parse one value, then require only
trailing whitespace.  The initial fuel `length + 1` always suffices,
since every recursive step consumes input. -/
def parseJsonChars (l : List Char) : Option Json :=
  match parseValue (l.length + 1) l with
  | some (j, r) => if skipWs r = [] then some j else none
  | none => none

/-- `JSON.parse` on a string: `some` the parsed value, `none` when the
real parser would throw a `SyntaxError`. -/
def parseJsonString (s : String) : Option Json := parseJsonChars s.data

/-- The numeric value of a plain digit lexeme (used to read back the
serialized `id`). -/
def digitsToNat (cs : List Char) : Option Nat :=
  if cs ≠ [] ∧ cs.all Char.isDigit then
    some (cs.foldl (fun a c => 10 * a + (c.toNat - 48)) 0)
  else none

/-- The typed reading of one parsed JSON value as a `Todo` record, per
the persisted-state shape of the specification
(`[{id:number, text:string, completed:boolean, createdAt:string}, ...]`);
the TypeScript code assumes this shape via the `Todo[]` cast. -/
def decodeTodo : Json → Option Todo
  | Json.obj [("id", Json.num n), ("text", Json.str s),
      ("completed", Json.bool b), ("createdAt", Json.str c)] =>
    match digitsToNat n.data with
    | some i => some { id := i, text := s, completed := b, createdAt := c }
    | none => none
  | _ => none

/-- The typed reading of a parsed JSON value as a collection. -/
def decodeTodos : Json → Option (List Todo)
  | Json.arr es => es.mapM decodeTodo
  | _ => none

/-- The load effect, acting on the persisted slot: absent slot (or a
falsy empty string, because of the `if (savedTodos)` truthiness test)
keeps the initial empty array and leaves the slot alone; a parse failure
logs, removes the slot, and keeps the initial empty array; otherwise the
parsed value is installed as the state.  Returns the resulting state
(as the JS value assigned to `todos`) together with the slot after the
effect. -/
def load (slot : Option String) : Json × Option String :=
  match slot with
  | none => (Json.arr [], none)
  | some s =>
    if s = "" then (Json.arr [], some s)
    else
      match parseJsonString s with
      | some j => (j, some s)
      | none => (Json.arr [], none)

/- Decimal digit printing lemmas. -/

theorem digitChar_toNat (d : Nat) (h : d < 10) : (digitChar d).toNat = 48 + d := by
  interval_cases d <;> decide

theorem digitChar_isDigit (d : Nat) (h : d < 10) : (digitChar d).isDigit = true := by
  interval_cases d <;> decide

theorem digitChar_props (d : Nat) (h : d < 10) :
    digitChar d ≠ 'n' ∧ digitChar d ≠ 't' ∧ digitChar d ≠ 'f' ∧ digitChar d ≠ '"' ∧
      digitChar d ≠ '[' ∧ digitChar d ≠ '\x7b' ∧ digitChar d ≠ '-' ∧
      ¬(digitChar d = ' ' ∨ digitChar d = '\x09' ∨ digitChar d = '\x0a' ∨ digitChar d = '\x0d') := by
  interval_cases d <;> decide

theorem natToCharsAux_lt (n : Nat) (tail : List Char) (h : n < 10) :
    natToCharsAux n tail = digitChar n :: tail := by
  conv_lhs => rw [natToCharsAux]
  rw [if_pos h]

theorem natToCharsAux_ge (n : Nat) (tail : List Char) (h : ¬n < 10) :
    natToCharsAux n tail = natToCharsAux (n / 10) (digitChar (n % 10) :: tail) := by
  conv_lhs => rw [natToCharsAux]
  rw [if_neg h]

theorem natToCharsAux_append (n : Nat) : ∀ tail : List Char,
    natToCharsAux n tail = natToChars n ++ tail := by
  induction n using Nat.strong_induction_on with
  | _ n ih =>
    intro tail
    by_cases h : n < 10
    · rw [natToCharsAux_lt n tail h, natToChars, natToCharsAux_lt n [] h]
      simp
    · have hd : n / 10 < n := Nat.div_lt_self (by omega) (by omega)
      rw [natToCharsAux_ge n tail h, ih (n / 10) hd]
      conv_rhs => rw [natToChars, natToCharsAux_ge n [] h, ih (n / 10) hd]
      simp

theorem natToChars_digits (n : Nat) :
    ∀ c ∈ natToChars n, ∃ d, d < 10 ∧ c = digitChar d := by
  induction n using Nat.strong_induction_on with
  | _ n ih =>
    intro c hc
    by_cases h : n < 10
    · rw [natToChars, natToCharsAux_lt n [] h] at hc
      simp at hc
      exact ⟨n, h, hc⟩
    · have hd : n / 10 < n := Nat.div_lt_self (by omega) (by omega)
      rw [natToChars, natToCharsAux_ge n [] h, natToCharsAux_append] at hc
      rcases List.mem_append.mp hc with h1 | h1
      · exact ih (n / 10) hd c h1
      · simp at h1
        exact ⟨n % 10, by omega, h1⟩

theorem natToChars_head (n : Nat) :
    ∃ d ds, natToChars n = digitChar d :: ds ∧ d < 10 ∧ (n ≠ 0 → d ≠ 0) := by
  induction n using Nat.strong_induction_on with
  | _ n ih =>
    by_cases h : n < 10
    · refine ⟨n, [], ?_, h, fun hn => hn⟩
      rw [natToChars, natToCharsAux_lt n [] h]
    · have hd : n / 10 < n := Nat.div_lt_self (by omega) (by omega)
      obtain ⟨d, ds, heq, hlt, hnz⟩ := ih (n / 10) hd
      refine ⟨d, ds ++ [digitChar (n % 10)], ?_, hlt, fun _ => hnz (by omega)⟩
      rw [natToChars, natToCharsAux_ge n [] h, natToCharsAux_append, heq]
      simp

theorem foldl_natToCharsAux (n : Nat) : ∀ (tail : List Char) (acc : Nat),
    (natToCharsAux n tail).foldl (fun a c => 10 * a + (c.toNat - 48)) acc
      = tail.foldl (fun a c => 10 * a + (c.toNat - 48))
          (acc * 10 ^ (natToChars n).length + n) := by
  induction n using Nat.strong_induction_on with
  | _ n ih =>
    intro tail acc
    by_cases h : n < 10
    · rw [natToCharsAux_lt n tail h]
      have hlen : (natToChars n).length = 1 := by
        rw [natToChars, natToCharsAux_lt n [] h]
        rfl
      rw [hlen]
      simp only [List.foldl_cons, digitChar_toNat n h, pow_one]
      congr 1
      omega
    · have hd : n / 10 < n := Nat.div_lt_self (by omega) (by omega)
      rw [natToCharsAux_ge n tail h, ih (n / 10) hd]
      have hlen : (natToChars n).length = (natToChars (n / 10)).length + 1 := by
        rw [natToChars, natToCharsAux_ge n [] h, natToCharsAux_append]
        simp
      rw [hlen, List.foldl_cons]
      have hmod : (digitChar (n % 10)).toNat - 48 = n % 10 := by
        rw [digitChar_toNat (n % 10) (by omega)]
        omega
      rw [hmod]
      have hdm : 10 * (n / 10) + n % 10 = n := Nat.div_add_mod n 10
      have hpow : 10 ^ ((natToChars (n / 10)).length + 1)
          = 10 ^ (natToChars (n / 10)).length * 10 := pow_succ 10 _
      rw [hpow]
      congr 1
      ring_nf
      omega

theorem natToChars_ne_nil (n : Nat) : natToChars n ≠ [] := by
  obtain ⟨d, ds, heq, _, _⟩ := natToChars_head n
  rw [heq]
  simp

theorem natToChars_all_isDigit (n : Nat) : (natToChars n).all Char.isDigit = true := by
  rw [List.all_eq_true]
  intro c hc
  obtain ⟨d, hlt, rfl⟩ := natToChars_digits n c hc
  exact digitChar_isDigit d hlt

theorem digitsToNat_natToChars (n : Nat) : digitsToNat (natToChars n) = some n := by
  rw [digitsToNat, if_pos ⟨natToChars_ne_nil n, natToChars_all_isDigit n⟩]
  have := foldl_natToCharsAux n [] 0
  rw [natToChars] at this ⊢
  rw [this]
  simp

/- JSON string escaping round trip. -/

theorem parseHex_hexDigitChar (d : Nat) (h : d < 16) : parseHex (hexDigitChar d) = some d := by
  interval_cases d <;> decide

theorem parseStringBody_round (s : List Char) : ∀ (acc rest : List Char),
    parseStringBody (escString s ++ '"' :: rest) acc
      = some (String.mk (acc.reverse ++ s), rest) := by
  induction s with
  | nil =>
    intro acc rest
    simp only [escString, List.nil_append]
    rw [parseStringBody.eq_def]
    simp
  | cons c cs ih =>
    intro acc rest
    rw [escString, List.append_assoc]
    by_cases h1 : c = '"'
    · subst h1
      have step : ∀ X a, parseStringBody (escapeChar '"' ++ X) a = parseStringBody X ('"' :: a) := by
        intro X a
        rw [show escapeChar '"' = ['\\', '"'] from by decide, parseStringBody.eq_def]
        simp
      rw [step, ih]
      simp
    by_cases h2 : c = '\\'
    · subst h2
      have step : ∀ X a, parseStringBody (escapeChar '\\' ++ X) a = parseStringBody X ('\\' :: a) := by
        intro X a
        rw [show escapeChar '\\' = ['\\', '\\'] from by decide, parseStringBody.eq_def]
        simp
      rw [step, ih]
      simp
    by_cases h3 : c = '\x08'
    · subst h3
      have step : ∀ X a, parseStringBody (escapeChar '\x08' ++ X) a
          = parseStringBody X ('\x08' :: a) := by
        intro X a
        rw [show escapeChar '\x08' = ['\\', 'b'] from by decide, parseStringBody.eq_def]
        simp
      rw [step, ih]
      simp
    by_cases h4 : c = '\x09'
    · subst h4
      have step : ∀ X a, parseStringBody (escapeChar '\x09' ++ X) a
          = parseStringBody X ('\x09' :: a) := by
        intro X a
        rw [show escapeChar '\x09' = ['\\', 't'] from by decide, parseStringBody.eq_def]
        simp
      rw [step, ih]
      simp
    by_cases h5 : c = '\x0a'
    · subst h5
      have step : ∀ X a, parseStringBody (escapeChar '\x0a' ++ X) a
          = parseStringBody X ('\x0a' :: a) := by
        intro X a
        rw [show escapeChar '\x0a' = ['\\', 'n'] from by decide, parseStringBody.eq_def]
        simp
      rw [step, ih]
      simp
    by_cases h6 : c = '\x0c'
    · subst h6
      have step : ∀ X a, parseStringBody (escapeChar '\x0c' ++ X) a
          = parseStringBody X ('\x0c' :: a) := by
        intro X a
        rw [show escapeChar '\x0c' = ['\\', 'f'] from by decide, parseStringBody.eq_def]
        simp
      rw [step, ih]
      simp
    by_cases h7 : c = '\x0d'
    · subst h7
      have step : ∀ X a, parseStringBody (escapeChar '\x0d' ++ X) a
          = parseStringBody X ('\x0d' :: a) := by
        intro X a
        rw [show escapeChar '\x0d' = ['\\', 'r'] from by decide, parseStringBody.eq_def]
        simp
      rw [step, ih]
      simp
    by_cases hlt : c.toNat < 32
    · have hesc : escapeChar c
          = ['\\', 'u', '0', '0', hexDigitChar (c.toNat / 16), hexDigitChar (c.toNat % 16)] := by
        rw [escapeChar, if_neg h1, if_neg h2, if_neg h3, if_neg h4, if_neg h5, if_neg h6,
          if_neg h7, if_pos hlt]
      have step : ∀ X a, parseStringBody (escapeChar c ++ X) a = parseStringBody X (c :: a) := by
        intro X a
        rw [hesc, parseStringBody.eq_def]
        simp only [List.cons_append, List.nil_append,
          parseHex_hexDigitChar (c.toNat / 16) (by omega),
          parseHex_hexDigitChar (c.toNat % 16) (by omega)]
        simp [parseHex]
        rw [show c.toNat / 16 * 16 + c.toNat % 16 = c.toNat from by omega, Char.ofNat_toNat]
      rw [step, ih]
      simp
    · have hesc : escapeChar c = [c] := by
        rw [escapeChar, if_neg h1, if_neg h2, if_neg h3, if_neg h4, if_neg h5, if_neg h6,
          if_neg h7, if_neg hlt]
      have step : ∀ X a, parseStringBody (escapeChar c ++ X) a = parseStringBody X (c :: a) := by
        intro X a
        rw [hesc, parseStringBody.eq_def]
        simp [h1, h2, hlt]
      rw [step, ih]
      simp

/- JSON number lexeme round trip for the serialized ids. -/

/-- Whether the input starts with a decimal digit. -/
def headIsDigit : List Char → Bool
  | [] => false
  | c :: _ => c.isDigit

theorem parseSignOpt_cons (c : Char) (cs : List Char) (h : ¬c = '-') :
    parseSignOpt (c :: cs) = ([], c :: cs) := by
  rw [parseSignOpt.eq_def]
  split
  · rename_i heq
    injection heq with h1 _
    exact absurd h1 h
  · rfl

theorem parseFracOpt_cons (c : Char) (cs : List Char) (h : ¬c = '.') :
    parseFracOpt (c :: cs) = some ([], c :: cs) := by
  rw [parseFracOpt.eq_def]
  split
  · rename_i heq
    injection heq with h1 _
    exact absurd h1 h
  · rfl

theorem parseExpOpt_cons (c : Char) (cs : List Char) (he : ¬(c = 'e' ∨ c = 'E')) :
    parseExpOpt (c :: cs) = some ([], c :: cs) := by
  rw [parseExpOpt.eq_def]
  simp [he]

theorem takeDigits_run (ds : List Char) (rest : List Char)
    (hds : ∀ x ∈ ds, x.isDigit = true) (hrest : headIsDigit rest = false) :
    takeDigits (ds ++ rest) = (ds, rest) := by
  induction ds with
  | nil =>
    cases rest with
    | nil => rfl
    | cons c cs =>
      simp only [headIsDigit] at hrest
      simp [takeDigits, hrest]
  | cons d ds1 ih =>
    have hd : d.isDigit = true := hds d (by simp)
    have hds1 : ∀ x ∈ ds1, x.isDigit = true := fun x hx => hds x (by simp [hx])
    simp [takeDigits, hd, ih hds1]

theorem parseIntPart_cons (c : Char) (ds rest : List Char)
    (hc : c.isDigit = true) (hc0 : ¬c = '0')
    (hds : ∀ x ∈ ds, x.isDigit = true) (hrest : headIsDigit rest = false) :
    parseIntPart (c :: ds ++ rest) = some (c :: ds, rest) := by
  rw [parseIntPart.eq_def]
  simp [hc0, hc, takeDigits_run ds rest hds hrest]

theorem parseNumber_run (c : Char) (ds r : List Char)
    (hc : c.isDigit = true) (hc0 : ¬c = '0')
    (hds : ∀ x ∈ ds, x.isDigit = true) :
    parseNumber (c :: (ds ++ ',' :: r)) = some (c :: ds, ',' :: r) := by
  have hcm : ¬c = '-' := by
    intro h
    rw [h] at hc
    simp [Char.isDigit] at hc
  have hip : parseIntPart (c :: (ds ++ ',' :: r)) = some (c :: ds, ',' :: r) := by
    have := parseIntPart_cons c ds (',' :: r) hc hc0 hds (by simp [headIsDigit, Char.isDigit])
    simpa using this
  simp [parseNumber, parseSignOpt_cons c (ds ++ ',' :: r) hcm, hip,
    parseFracOpt_cons ',' r (by decide), parseExpOpt_cons ',' r (by decide)]

theorem parseNumber_zero (r : List Char) :
    parseNumber ('0' :: ',' :: r) = some (['0'], ',' :: r) := by
  have hip : parseIntPart ('0' :: ',' :: r) = some (['0'], ',' :: r) := by
    rw [parseIntPart.eq_def]
    simp
  simp [parseNumber, parseSignOpt_cons '0' (',' :: r) (by decide), hip,
    parseFracOpt_cons ',' r (by decide), parseExpOpt_cons ',' r (by decide)]

theorem natToChars_zero : natToChars 0 = ['0'] := by
  rw [natToChars, natToCharsAux_lt 0 [] (by omega)]
  decide

theorem parseNumber_nat (n : Nat) (r : List Char) :
    parseNumber (natToChars n ++ ',' :: r) = some (natToChars n, ',' :: r) := by
  by_cases hn : n = 0
  · subst hn
    rw [natToChars_zero]
    exact parseNumber_zero r
  · obtain ⟨d, ds, heq, hd10, hdnz⟩ := natToChars_head n
    have hdig : ∀ x ∈ natToChars n, x.isDigit = true := by
      intro x hx
      obtain ⟨e, he, rfl⟩ := natToChars_digits n x hx
      exact digitChar_isDigit e he
    have hc : (digitChar d).isDigit = true := by
      apply hdig
      rw [heq]
      simp
    have hds : ∀ x ∈ ds, x.isDigit = true := by
      intro x hx
      apply hdig
      rw [heq]
      simp [hx]
    have hc0 : ¬digitChar d = '0' := by
      intro h
      have h2 := congrArg Char.toNat h
      rw [digitChar_toNat d hd10] at h2
      have h0 : ('0').toNat = 48 := by decide
      rw [h0] at h2
      exact hdnz hn (by omega)
    rw [heq, List.cons_append]
    exact parseNumber_run (digitChar d) ds r hc hc0 hds

/- Token-level lemmas for the JSON value parser. -/

theorem string_mk_data (s : String) : String.mk s.data = s := rfl

theorem skipWs_cons (c : Char) (cs : List Char)
    (h : ¬(c = ' ' ∨ c = '\x09' ∨ c = '\x0a' ∨ c = '\x0d')) :
    skipWs (c :: cs) = c :: cs := by
  rw [skipWs.eq_def]
  simp [h]

theorem serializeStringChars_append (k : String) (X : List Char) :
    serializeStringChars k ++ X = '"' :: (escString k.data ++ '"' :: X) := by
  simp [serializeStringChars]

theorem parseValue_string (s : String) (rest : List Char) (fuel : Nat) (h : 1 ≤ fuel) :
    parseValue fuel (serializeStringChars s ++ rest) = some (Json.str s, rest) := by
  obtain ⟨f, rfl⟩ : ∃ f, fuel = f + 1 := ⟨fuel - 1, by omega⟩
  rw [serializeStringChars_append, parseValue.eq_def]
  simp only [skipWs_cons '"' _ (by decide)]
  simp [parseStringBody_round s.data [] rest, string_mk_data]

theorem parseValue_bool (b : Bool) (rest : List Char) (fuel : Nat) (h : 1 ≤ fuel) :
    parseValue fuel ((if b then trueChars else falseChars) ++ rest)
      = some (Json.bool b, rest) := by
  obtain ⟨f, rfl⟩ : ∃ f, fuel = f + 1 := ⟨fuel - 1, by omega⟩
  cases b
  · rw [if_neg (by decide), show falseChars ++ rest = 'f' :: 'a' :: 'l' :: 's' :: 'e' :: rest
      from by simp [falseChars], parseValue.eq_def]
    simp only [skipWs_cons 'f' _ (by decide)]
    simp
  · rw [if_pos rfl, show trueChars ++ rest = 't' :: 'r' :: 'u' :: 'e' :: rest
      from by simp [trueChars], parseValue.eq_def]
    simp only [skipWs_cons 't' _ (by decide)]
    simp

theorem parseValue_natNum (n : Nat) (r : List Char) (fuel : Nat) (h : 1 ≤ fuel) :
    parseValue fuel (natToChars n ++ ',' :: r)
      = some (Json.num (natStr n), ',' :: r) := by
  obtain ⟨f, rfl⟩ : ∃ f, fuel = f + 1 := ⟨fuel - 1, by omega⟩
  obtain ⟨d, ds, heq, hd10, _⟩ := natToChars_head n
  obtain ⟨hn, ht, hf, hq, hbk, hbr, hm, hws⟩ := digitChar_props d hd10
  have hpn := parseNumber_nat n r
  rw [heq] at hpn ⊢
  simp only [List.cons_append] at hpn ⊢
  rw [parseValue.eq_def]
  simp only [skipWs_cons (digitChar d) _ hws]
  simp [hn, ht, hf, hq, hbk, hbr, hpn, digitChar_isDigit d hd10, natStr, heq]

theorem parseValue_openBrace_mem (f : Nat) (cs : List Char) (k : String) (X : List Char)
    (hskip : skipWs cs = serializeStringChars k ++ X) :
    parseValue (f + 1) ('\x7b' :: cs) = parseMembers f (serializeStringChars k ++ X) [] := by
  rw [parseValue.eq_def]
  simp only [skipWs_cons '\x7b' cs (by decide), hskip, serializeStringChars_append]
  simp

theorem parseMembers_step_comma (k : String) (v : Json) (g : Nat)
    (acc : List (String × Json)) (V r3 : List Char)
    (hv : parseValue g V = some (v, ',' :: r3)) :
    parseMembers (g + 1) (serializeStringChars k ++ ':' :: V) acc
      = parseMembers g r3 ((k, v) :: acc) := by
  rw [serializeStringChars_append, parseMembers.eq_def]
  simp only [skipWs_cons '"' _ (by decide), parseStringBody_round k.data [] (':' :: V)]
  simp only [skipWs_cons ':' V (by decide)]
  simp [string_mk_data, hv, skipWs_cons ',' r3 (by decide)]

theorem parseMembers_step_close (k : String) (v : Json) (g : Nat)
    (acc : List (String × Json)) (V r3 : List Char)
    (hv : parseValue g V = some (v, '\x7d' :: r3)) :
    parseMembers (g + 1) (serializeStringChars k ++ ':' :: V) acc
      = some (Json.obj ((k, v) :: acc).reverse, r3) := by
  rw [serializeStringChars_append, parseMembers.eq_def]
  simp only [skipWs_cons '"' _ (by decide), parseStringBody_round k.data [] (':' :: V)]
  simp only [skipWs_cons ':' V (by decide)]
  simp [string_mk_data, hv, skipWs_cons '\x7d' r3 (by decide)]

theorem parseValue_todoObj (t : Todo) (rest : List Char) (fuel : Nat) (h : 6 ≤ fuel) :
    parseValue fuel (serializeTodo t ++ rest) = some (todoToJson t, rest) := by
  obtain ⟨f, rfl⟩ : ∃ f, fuel = f + 6 := ⟨fuel - 6, by omega⟩
  have hA : serializeTodo t ++ rest
      = '\x7b' :: (serializeStringChars "id" ++ ':' ::
          (natToChars t.id ++ ',' ::
            (serializeStringChars "text" ++ ':' ::
              (serializeStringChars t.text ++ ',' ::
                (serializeStringChars "completed" ++ ':' ::
                  ((if t.completed then trueChars else falseChars) ++ ',' ::
                    (serializeStringChars "createdAt" ++ ':' ::
                      (serializeStringChars t.createdAt ++ '\x7d' :: rest)))))))) := by
    simp [serializeTodo, List.append_assoc]
  rw [hA]
  rw [show f + 6 = (f + 5) + 1 from rfl]
  rw [parseValue_openBrace_mem (f + 5) _ "id"
    (':' :: (natToChars t.id ++ ',' ::
      (serializeStringChars "text" ++ ':' ::
        (serializeStringChars t.text ++ ',' ::
          (serializeStringChars "completed" ++ ':' ::
            ((if t.completed then trueChars else falseChars) ++ ',' ::
              (serializeStringChars "createdAt" ++ ':' ::
                (serializeStringChars t.createdAt ++ '\x7d' :: rest))))))))
    (by rw [serializeStringChars_append]; exact skipWs_cons '"' _ (by decide))]
  rw [show f + 5 = (f + 4) + 1 from rfl]
  rw [parseMembers_step_comma "id" (Json.num (natStr t.id)) (f + 4) [] _ _
    (parseValue_natNum t.id _ (f + 4) (by omega))]
  rw [show f + 4 = (f + 3) + 1 from rfl]
  rw [parseMembers_step_comma "text" (Json.str t.text) (f + 3) _ _ _
    (parseValue_string t.text _ (f + 3) (by omega))]
  rw [show f + 3 = (f + 2) + 1 from rfl]
  rw [parseMembers_step_comma "completed" (Json.bool t.completed) (f + 2) _ _ _
    (parseValue_bool t.completed _ (f + 2) (by omega))]
  rw [show f + 2 = (f + 1) + 1 from rfl]
  rw [parseMembers_step_close "createdAt" (Json.str t.createdAt) (f + 1) _ _ _
    (parseValue_string t.createdAt _ (f + 1) (by omega))]
  simp [todoToJson]

theorem serializeTodo_head (t : Todo) (X : List Char) :
    serializeTodo t ++ X
      = '\x7b' :: (serializeStringChars "id" ++ ':' ::
          (natToChars t.id ++ ',' ::
            (serializeStringChars "text" ++ ':' ::
              (serializeStringChars t.text ++ ',' ::
                (serializeStringChars "completed" ++ ':' ::
                  ((if t.completed then trueChars else falseChars) ++ ',' ::
                    (serializeStringChars "createdAt" ++ ':' ::
                      (serializeStringChars t.createdAt ++ '\x7d' :: X)))))))) := by
  simp [serializeTodo, List.append_assoc]

theorem parseValue_emptyArr (rest : List Char) (fuel : Nat) (h : 1 ≤ fuel) :
    parseValue fuel ('[' :: ']' :: rest) = some (Json.arr [], rest) := by
  obtain ⟨f, rfl⟩ : ∃ f, fuel = f + 1 := ⟨fuel - 1, by omega⟩
  rw [parseValue.eq_def]
  simp only [skipWs_cons '[' _ (by decide), skipWs_cons ']' rest (by decide)]
  simp

theorem parseValue_openBracket (f : Nat) (c : Char) (Y : List Char)
    (hc : ¬c = ']')
    (hcws : ¬(c = ' ' ∨ c = '\x09' ∨ c = '\x0a' ∨ c = '\x0d')) :
    parseValue (f + 1) ('[' :: c :: Y) = parseElems f (c :: Y) [] := by
  rw [parseValue.eq_def]
  simp only [skipWs_cons '[' _ (by decide), skipWs_cons c Y hcws]
  simp
  split
  · rename_i heq
    injection heq with h1 _
    exact absurd h1 hc
  · rfl

theorem parseElems_todos (ts : List Todo) :
    ∀ (t : Todo) (rest : List Char) (acc : List Json) (fuel : Nat),
      ts.length + 7 ≤ fuel →
      parseElems fuel (serializeTodo t ++ (serializeTodosAux ts ++ ']' :: rest)) acc
        = some (Json.arr (acc.reverse ++ (t :: ts).map todoToJson), rest) := by
  induction ts with
  | nil =>
    intro t rest acc fuel hf
    obtain ⟨g, rfl⟩ : ∃ g, fuel = g + 7 := ⟨fuel - 7, by omega⟩
    rw [show g + 7 = (g + 6) + 1 from rfl, parseElems.eq_def]
    simp only [serializeTodosAux, List.nil_append,
      parseValue_todoObj t (']' :: rest) (g + 6) (by omega)]
    simp [skipWs_cons ']' rest (by decide)]
  | cons t2 ts2 ih =>
    intro t rest acc fuel hf
    obtain ⟨g, rfl⟩ : ∃ g, fuel = g + 1 := ⟨fuel - 1, by omega⟩
    simp only [List.length_cons] at hf
    have hArg : serializeTodo t ++ (serializeTodosAux (t2 :: ts2) ++ ']' :: rest)
        = serializeTodo t ++ (',' :: (serializeTodo t2 ++ (serializeTodosAux ts2 ++ ']' :: rest))) := by
      simp [serializeTodosAux, List.append_assoc]
    rw [hArg, parseElems.eq_def]
    simp only [parseValue_todoObj t
      (',' :: (serializeTodo t2 ++ (serializeTodosAux ts2 ++ ']' :: rest))) g (by omega)]
    simp only [skipWs_cons ',' _ (by decide)]
    simp only [ih t2 rest (todoToJson t :: acc) g (by omega)]
    simp

theorem parseValue_todos (ts : List Todo) (rest : List Char) (fuel : Nat)
    (h : ts.length + 8 ≤ fuel) :
    parseValue fuel (serializeTodos ts ++ rest) = some (todosToJson ts, rest) := by
  cases ts with
  | nil =>
    rw [show serializeTodos [] ++ rest = '[' :: ']' :: rest from by simp [serializeTodos]]
    rw [parseValue_emptyArr rest fuel (by omega)]
    simp [todosToJson]
  | cons t ts2 =>
    obtain ⟨f, rfl⟩ : ∃ f, fuel = f + 1 := ⟨fuel - 1, by omega⟩
    simp only [List.length_cons] at h
    rw [show serializeTodos (t :: ts2) ++ rest
        = '[' :: (serializeTodo t ++ (serializeTodosAux ts2 ++ ']' :: rest))
      from by simp [serializeTodos, List.append_assoc]]
    rw [serializeTodo_head t]
    rw [parseValue_openBracket f '\x7b' _ (by decide) (by decide)]
    rw [← serializeTodo_head t]
    rw [parseElems_todos ts2 t rest [] f (by omega)]
    simp [todosToJson]

/- Fuel bound: the serialized form is long enough that `length + 1`
always suffices for the top-level parser. -/

theorem serializeTodo_length (t : Todo) : 8 ≤ (serializeTodo t).length := by
  simp [serializeTodo]
  omega

theorem serializeTodosAux_length (ts : List Todo) :
    9 * ts.length ≤ (serializeTodosAux ts).length := by
  induction ts with
  | nil => simp [serializeTodosAux]
  | cons t ts2 ih =>
    simp only [serializeTodosAux, List.length_cons, List.length_append]
    have := serializeTodo_length t
    simp
    omega

theorem serializeTodos_length (t : Todo) (ts2 : List Todo) :
    (t :: ts2).length + 8 ≤ (serializeTodos (t :: ts2)).length + 1 := by
  simp only [serializeTodos, List.length_cons, List.length_append]
  have h1 := serializeTodo_length t
  have h2 := serializeTodosAux_length ts2
  simp
  omega

theorem parseJsonChars_todos (ts : List Todo) :
    parseJsonChars (serializeTodos ts) = some (todosToJson ts) := by
  cases ts with
  | nil =>
    rw [parseJsonChars]
    have h2 := parseValue_emptyArr [] ((serializeTodos []).length + 1) (by simp [serializeTodos])
    rw [show serializeTodos [] = '[' :: ']' :: [] from by simp [serializeTodos]]
    rw [show serializeTodos [] = '[' :: ']' :: [] from by simp [serializeTodos]] at h2
    rw [h2]
    simp [skipWs, todosToJson]
  | cons t ts2 =>
    rw [parseJsonChars]
    have h1 := serializeTodos_length t ts2
    have h2 := parseValue_todos (t :: ts2) []
      ((serializeTodos (t :: ts2)).length + 1) (by omega)
    rw [List.append_nil] at h2
    rw [h2]
    simp [skipWs]

/- Typed decoding round trip. -/

theorem decodeTodo_todoToJson (t : Todo) : decodeTodo (todoToJson t) = some t := by
  obtain ⟨i, tx, c, ca⟩ := t
  simp [decodeTodo, todoToJson, natStr, string_mk_data, digitsToNat_natToChars]

theorem decodeTodos_todosToJson (ts : List Todo) :
    decodeTodos (todosToJson ts) = some ts := by
  have key : ∀ (l : List Todo) (acc : List Todo),
      List.mapM.loop decodeTodo (l.map todoToJson) acc = some (acc.reverse ++ l) := by
    intro l
    induction l with
    | nil =>
      intro acc
      simp [List.mapM.loop]
    | cons t l2 ih =>
      intro acc
      simp [List.mapM.loop, decodeTodo_todoToJson t, ih]
  simp [decodeTodos, todosToJson, List.mapM, key ts []]

/- Top-level persistence lemmas. -/

theorem saveString_ne_empty (ts : List Todo) : saveString ts ≠ "" := by
  rw [saveString]
  intro h
  have hd : serializeTodos ts = [] := by
    have := congrArg String.data h
    simpa using this
  cases ts with
  | nil => simp [serializeTodos] at hd
  | cons t ts2 => simp [serializeTodos] at hd

theorem parseJsonString_save (ts : List Todo) :
    parseJsonString (saveString ts) = some (todosToJson ts) := by
  rw [parseJsonString, saveString]
  exact parseJsonChars_todos ts

theorem load_save (ts : List Todo) : load (save ts) = (todosToJson ts, save ts) := by
  rw [save, load]
  rw [if_neg (saveString_ne_empty ts), parseJsonString_save ts]

/- Id-uniqueness invariant for operation sequences. -/

theorem idsOf_mem (l : List Todo) (t : Todo) (ht : t ∈ l) : t.id ∈ idsOf l := by
  simp only [idsOf, List.mem_map]
  exact ⟨t, ht, rfl⟩

theorem idsOf_mem_ex (l : List Todo) (x : Nat) (hx : x ∈ idsOf l) : ∃ u ∈ l, u.id = x := by
  simp only [idsOf, List.mem_map] at hx
  exact hx

theorem deleteTodo_idsOf_sublist (todos : List Todo) (i : Nat) :
    List.Sublist (idsOf (deleteTodo todos i)) (idsOf todos) := by
  rw [idsOf, idsOf]
  exact List.Sublist.map (fun todo => todo.id) (deleteTodo_sublist todos i)

theorem runOps_aux : ∀ (ops : List Op) (todos : List Todo),
    (addNows ops).Nodup → (idsOf todos).Nodup →
    (∀ t ∈ todos, t.id ∉ addNows ops) →
    (idsOf (ops.foldl applyOp todos)).Nodup ∧
      ∀ t ∈ ops.foldl applyOp todos, t.id ∈ idsOf todos ∨ t.id ∈ addNows ops := by
  intro ops
  induction ops with
  | nil =>
    intro todos h1 h2 h3
    exact ⟨h2, fun t ht => Or.inl (idsOf_mem todos t ht)⟩
  | cons op ops ih =>
    intro todos h1 h2 h3
    cases op with
    | toggle i =>
      have hnows : addNows (Op.toggle i :: ops) = addNows ops := by simp [addNows]
      rw [hnows] at h1 h3 ⊢
      simp only [List.foldl_cons, applyOp]
      have hsub : ∀ x ∈ idsOf (toggleTodo todos i), x ∈ idsOf todos := by
        rw [toggleTodo_idsOf]
        exact fun x h => h
      have h2n : (idsOf (toggleTodo todos i)).Nodup := by
        rw [toggleTodo_idsOf]
        exact h2
      have h3n : ∀ t ∈ toggleTodo todos i, t.id ∉ addNows ops := by
        intro t ht hc
        obtain ⟨u, hu, huid⟩ := idsOf_mem_ex todos t.id (hsub t.id (idsOf_mem _ t ht))
        exact h3 u hu (huid ▸ hc)
      have hih := ih _ h1 h2n h3n
      exact ⟨hih.1, fun t ht => (hih.2 t ht).elim (fun h => Or.inl (hsub _ h)) Or.inr⟩
    | edit i newText =>
      have hnows : addNows (Op.edit i newText :: ops) = addNows ops := by simp [addNows]
      rw [hnows] at h1 h3 ⊢
      simp only [List.foldl_cons, applyOp]
      have hsub : ∀ x ∈ idsOf (editTodo todos i newText), x ∈ idsOf todos := by
        rw [editTodo_idsOf]
        exact fun x h => h
      have h2n : (idsOf (editTodo todos i newText)).Nodup := by
        rw [editTodo_idsOf]
        exact h2
      have h3n : ∀ t ∈ editTodo todos i newText, t.id ∉ addNows ops := by
        intro t ht hc
        obtain ⟨u, hu, huid⟩ := idsOf_mem_ex todos t.id (hsub t.id (idsOf_mem _ t ht))
        exact h3 u hu (huid ▸ hc)
      have hih := ih _ h1 h2n h3n
      exact ⟨hih.1, fun t ht => (hih.2 t ht).elim (fun h => Or.inl (hsub _ h)) Or.inr⟩
    | delete i =>
      have hnows : addNows (Op.delete i :: ops) = addNows ops := by simp [addNows]
      rw [hnows] at h1 h3 ⊢
      simp only [List.foldl_cons, applyOp]
      have hsub : ∀ x ∈ idsOf (deleteTodo todos i), x ∈ idsOf todos :=
        fun x h => (deleteTodo_idsOf_sublist todos i).subset h
      have h2n : (idsOf (deleteTodo todos i)).Nodup :=
        (deleteTodo_idsOf_sublist todos i).nodup h2
      have h3n : ∀ t ∈ deleteTodo todos i, t.id ∉ addNows ops := by
        intro t ht hc
        obtain ⟨u, hu, huid⟩ := idsOf_mem_ex todos t.id (hsub t.id (idsOf_mem _ t ht))
        exact h3 u hu (huid ▸ hc)
      have hih := ih _ h1 h2n h3n
      exact ⟨hih.1, fun t ht => (hih.2 t ht).elim (fun h => Or.inl (hsub _ h)) Or.inr⟩
    | add text now nowIso =>
      by_cases htext : text = ""
      · have hnows : addNows (Op.add text now nowIso :: ops) = addNows ops := by
          simp [addNows, htext]
        rw [hnows] at h1 h3 ⊢
        simp only [List.foldl_cons, applyOp, addTodo, if_pos htext]
        exact ih todos h1 h2 h3
      · have hnows : addNows (Op.add text now nowIso :: ops) = now :: addNows ops := by
          simp [addNows, htext]
        rw [hnows] at h1 h3 ⊢
        simp only [List.foldl_cons, applyOp, addTodo, if_neg htext]
        have hnodup := List.nodup_cons.mp h1
        have hnotin : now ∉ idsOf todos := by
          intro hmem
          obtain ⟨u, hu, huid⟩ := idsOf_mem_ex todos now hmem
          exact h3 u hu (by simp [huid])
        have hids : idsOf (todos ++
            [{ id := now, text := text, completed := false, createdAt := nowIso }])
            = idsOf todos ++ [now] := by
          simp [idsOf]
        have h2n : (idsOf (todos ++
            [{ id := now, text := text, completed := false, createdAt := nowIso }])).Nodup := by
          rw [hids]
          simp [List.nodup_append]
          exact ⟨h2, fun hmem => hnotin hmem⟩
        have h3n : ∀ t ∈ todos ++
            [{ id := now, text := text, completed := false, createdAt := nowIso }],
            t.id ∉ addNows ops := by
          intro t ht
          rcases List.mem_append.mp ht with hmem | hmem
          · exact fun hc => h3 t hmem (by simp [hc])
          · simp at hmem
            subst hmem
            simpa using hnodup.1
        have hih := ih _ hnodup.2 h2n h3n
        refine ⟨hih.1, ?_⟩
        intro t ht
        rcases hih.2 t ht with h | h
        · rw [hids] at h
          rcases List.mem_append.mp h with h | h
          · exact Or.inl h
          · simp at h
            exact Or.inr (by simp [h])
        · exact Or.inr (by simp [h])

/-!
Claim theorems.  `sampleTodos` is a generic two-element store used by the
witnesses; `dupTodos` is a store with a duplicated id, reachable through
two adds within the same `Date.now()` millisecond.
-/

/-- A sample store with two distinct tasks. -/
def sampleTodos : List Todo :=
  [{ id := 1, text := "a", completed := false, createdAt := "c1" },
   { id := 2, text := "b", completed := true, createdAt := "c2" }]

/-- A store holding two tasks with the same id, as produced by two adds
with the same timestamp. -/
def dupTodos : List Todo :=
  [{ id := 5, text := "a", completed := false, createdAt := "c1" },
   { id := 5, text := "b", completed := true, createdAt := "c2" }]

/-- C1: saving any well-formed collection and loading it back yields the
same collection: the slot is overwritten with the full serialization, the
loaded JS value is exactly the serialized collection, and reading it at
the record type recovers the original list. -/
theorem C1_save_load_round_trip (ts : List Todo) :
    load (save ts) = (todosToJson ts, save ts) ∧ decodeTodos (todosToJson ts) = some ts :=
  ⟨load_save ts, decodeTodos_todosToJson ts⟩

/-- C2 counterexample: when the slot holds the empty string it is
present and does not decode as JSON, yet `load` yields the empty
collection WITHOUT deleting the slot — the `if (savedTodos)` truthiness
test treats the empty string like an absent slot, so the claimed
"deletes the corrupted slot" fails at this input. -/
theorem C2_cex_empty_string_slot :
    (some "" : Option String) ≠ none ∧ parseJsonString "" = none ∧
      load (some "") = (Json.arr [], some "") :=
  ⟨by simp, rfl, rfl⟩

/-- C2 amended: `load` never throws; an absent slot yields the empty
collection; a present but empty-string slot yields the empty collection
and leaves the slot in place; a present, non-empty slot that fails to
parse as JSON is deleted and the empty collection is yielded; a present,
non-empty slot that parses installs the parsed value unchanged. -/
theorem C2_load_error_handling :
    load none = (Json.arr [], none) ∧
    load (some "") = (Json.arr [], some "") ∧
    (∀ s : String, s ≠ "" → parseJsonString s = none → load (some s) = (Json.arr [], none)) ∧
    (∀ s : String, s ≠ "" → ∀ j, parseJsonString s = some j → load (some s) = (j, some s)) := by
  refine ⟨rfl, rfl, ?_, ?_⟩
  · intro s hs hp
    simp [load, hs, hp]
  · intro s hs j hp
    simp [load, hs, hp]

/-- C2 witness: the amended behaviour at the concrete slots "x"
(non-empty garbage: deleted) and "[]" (valid JSON: installed). -/
theorem C2_load_error_handling_witness :
    load (some "x") = (Json.arr [], none) ∧ load (some "[]") = (Json.arr [], some "[]") :=
  ⟨C2_load_error_handling.2.2.1 "x" (by decide) rfl,
   C2_load_error_handling.2.2.2 "[]" (by decide) (Json.arr []) rfl⟩

/-- C3: adding empty text is a no-op; adding non-empty text appends
exactly one record at the end with the text unmodified, completed false
and the supplied creation data, raising the total count by one. -/
theorem C3_add_behavior (todos : List Todo) (text : String) (now : Nat) (nowIso : String) :
    (text = "" → addTodo todos text now nowIso = todos) ∧
    (text ≠ "" →
      addTodo todos text now nowIso
          = todos ++ [{ id := now, text := text, completed := false, createdAt := nowIso }] ∧
        totalCount (addTodo todos text now nowIso) = totalCount todos + 1) := by
  constructor
  · intro h
    simp [addTodo, h]
  · intro h
    constructor
    · simp [addTodo, h]
    · simp [addTodo, h, totalCount]

/-- C3 witness: the two behaviours at a concrete store. -/
theorem C3_add_behavior_witness :
    addTodo sampleTodos "" 9 "c9" = sampleTodos ∧
      addTodo sampleTodos "new" 9 "c9"
        = sampleTodos ++ [{ id := 9, text := "new", completed := false, createdAt := "c9" }] :=
  ⟨(C3_add_behavior sampleTodos "" 9 "c9").1 rfl,
   ((C3_add_behavior sampleTodos "new" 9 "c9").2 (by decide)).1⟩

/-- C4: toggling twice restores every completed flag (toggle is an
involution on the store), and toggling an id that matches no task leaves
the collection unchanged. -/
theorem C4_toggle_involution (todos : List Todo) (i : Nat) :
    toggleTodo (toggleTodo todos i) i = todos ∧
    ((∀ t ∈ todos, t.id ≠ i) → toggleTodo todos i = todos) :=
  ⟨toggleTodo_involutive todos i, toggleTodo_not_mem todos i⟩

/-- C4 witness: the involution and the missing-id no-op at a concrete
store. -/
theorem C4_toggle_involution_witness :
    toggleTodo (toggleTodo sampleTodos 1) 1 = sampleTodos ∧
      toggleTodo sampleTodos 99 = sampleTodos :=
  ⟨(C4_toggle_involution sampleTodos 1).1,
   (C4_toggle_involution sampleTodos 99).2 (by decide)⟩

/-- C5 counterexample: in a store with two tasks sharing id 5 (a state
reachable when `Date.now()` collides), the state contains a task with id
5, yet `delete(5)` removes BOTH records: the count drops by two, not
one, so "removes exactly one record" fails. -/
theorem C5_cex_duplicate_ids :
    (∃ t ∈ dupTodos, t.id = 5) ∧ deleteTodo dupTodos 5 = [] ∧
      totalCount (deleteTodo dupTodos 5) + 1 ≠ totalCount dupTodos := by
  decide

/-- C5 amended: for every store state in which EXACTLY ONE task has id
i, `delete(i)` removes exactly that record and decreases the total by
one; deleting the same id again is a no-op, the result holds no task
with id i, every other task survives, and deleting an id matching no
task leaves the collection unchanged. -/
theorem C5_delete_by_id (todos : List Todo) (i : Nat)
    (h : (todos.filter (fun t => t.id == i)).length = 1) :
    totalCount (deleteTodo todos i) + 1 = totalCount todos ∧
    deleteTodo (deleteTodo todos i) i = deleteTodo todos i ∧
    (∀ t ∈ deleteTodo todos i, t.id ≠ i) ∧
    (∀ t ∈ todos, t.id ≠ i → t ∈ deleteTodo todos i) ∧
    (∀ i2 : Nat, (∀ t ∈ todos, t.id ≠ i2) → deleteTodo todos i2 = todos) := by
  refine ⟨?_, ?_, ?_, ?_, fun i2 h2 => deleteTodo_not_mem todos i2 h2⟩
  · have hl := deleteTodo_length todos i
    rw [h] at hl
    rw [totalCount, totalCount]
    omega
  · simp [deleteTodo, List.filter_filter]
  · intro t ht
    rw [deleteTodo] at ht
    have := (List.mem_filter.mp ht).2
    simpa [bne] using this
  · intro t ht hne
    rw [deleteTodo]
    exact List.mem_filter.mpr ⟨ht, by simpa [bne] using hne⟩

/-- C5 witness: deletion at a store whose ids are unique. -/
theorem C5_delete_by_id_witness :
    totalCount (deleteTodo sampleTodos 1) + 1 = totalCount sampleTodos ∧
      deleteTodo (deleteTodo sampleTodos 1) 1 = deleteTodo sampleTodos 1 :=
  ⟨(C5_delete_by_id sampleTodos 1 (by decide)).1,
   (C5_delete_by_id sampleTodos 1 (by decide)).2.1⟩

/-- C6: editing replaces the text of every position whose id matches
(leaving its id, completed flag and createdAt unchanged) and leaves
every non-matching position untouched; the length is preserved, and
editing an id matching no task is a no-op. -/
theorem C6_edit_frame (todos : List Todo) (i : Nat) (newText : String) :
    (editTodo todos i newText).length = todos.length ∧
    (∀ (j : Nat) (hj : j < todos.length) (hj2 : j < (editTodo todos i newText).length),
      (editTodo todos i newText).get ⟨j, hj2⟩
        = if (todos.get ⟨j, hj⟩).id = i
            then { todos.get ⟨j, hj⟩ with text := newText }
            else todos.get ⟨j, hj⟩) ∧
    ((∀ t ∈ todos, t.id ≠ i) → editTodo todos i newText = todos) := by
  refine ⟨editTodo_length todos i newText, ?_, editTodo_not_mem todos i newText⟩
  intro j hj hj2
  simp [editTodo, List.get_eq_getElem, List.getElem_map]

/-- C6 witness: the edit of a matching position and the missing-id no-op
at a concrete store. -/
theorem C6_edit_frame_witness :
    (editTodo sampleTodos 1 "z").get ⟨0, by decide⟩
        = { sampleTodos.get ⟨0, by decide⟩ with text := "z" } ∧
      editTodo sampleTodos 99 "z" = sampleTodos := by
  constructor
  · have h := (C6_edit_frame sampleTodos 1 "z").2.1 0 (by decide) (by decide)
    simpa using h
  · exact (C6_edit_frame sampleTodos 99 "z").2.2 (by decide)

/-- C7: the derived statistics satisfy total = length of the collection,
completed = number of completed tasks, remaining = total - completed,
with completed + remaining = total and completed ≤ total. -/
theorem C7_counts (todos : List Todo) :
    totalCount todos = todos.length ∧
    completedCount todos = (todos.filter (fun t => t.completed)).length ∧
    completedCount todos ≤ totalCount todos ∧
    completedCount todos + remainingCount todos = totalCount todos ∧
    remainingCount todos = totalCount todos - completedCount todos := by
  have hle : completedCount todos ≤ totalCount todos := List.length_filter_le _ _
  refine ⟨rfl, rfl, hle, ?_, rfl⟩
  rw [remainingCount]
  omega

/-- C8 counterexample: two adds carrying the same `Date.now()` reading
(two calls in the same millisecond) produce two tasks with the same id,
so ids are NOT pairwise distinct after every operation sequence. -/
theorem C8_cex_colliding_timestamps :
    ¬ (idsOf (runOps [Op.add "a" 5 "x", Op.add "b" 5 "y"])).Nodup := by
  decide

/-- C8 amended: if the `Date.now()` readings of the effective adds of
the sequence are pairwise distinct (a non-colliding clock), then all ids
in the resulting store are pairwise distinct, and every id is one of
those timestamps (the id is derived from the creation timestamp). -/
theorem C8_ids_unique (ops : List Op) (h : (addNows ops).Nodup) :
    (idsOf (runOps ops)).Nodup ∧ ∀ t ∈ runOps ops, t.id ∈ addNows ops := by
  have haux := runOps_aux ops [] h (by simp [idsOf]) (by simp)
  rw [runOps]
  refine ⟨haux.1, ?_⟩
  intro t ht
  rcases haux.2 t ht with hmem | hmem
  · simp [idsOf] at hmem
  · exact hmem

/-- C8 witness: a concrete sequence with distinct timestamps yields
distinct ids. -/
theorem C8_ids_unique_witness :
    (idsOf (runOps [Op.add "a" 5 "x", Op.add "b" 6 "y", Op.toggle 5])).Nodup :=
  (C8_ids_unique [Op.add "a" 5 "x", Op.add "b" 6 "y", Op.toggle 5] (by decide)).1

/-- C9: toggle and edit preserve the length and the exact sequence of
ids (no reordering, insertion or removal), and delete yields a sublist
of the original collection, preserving the relative order of the
remaining tasks. -/
theorem C9_order_preservation (todos : List Todo) (i : Nat) (newText : String) :
    idsOf (toggleTodo todos i) = idsOf todos ∧
    idsOf (editTodo todos i newText) = idsOf todos ∧
    (toggleTodo todos i).length = todos.length ∧
    (editTodo todos i newText).length = todos.length ∧
    List.Sublist (deleteTodo todos i) todos :=
  ⟨toggleTodo_idsOf todos i, editTodo_idsOf todos i newText, toggleTodo_length todos i,
    editTodo_length todos i newText, deleteTodo_sublist todos i⟩

/-- C10: when at least two tasks share an id, delete removes EVERY task
with that id (the count drops by the full number of matches), and toggle
and edit act position-wise on every matching task, not on a single
record. -/
theorem C10_collision_semantics (todos : List Todo) (i : Nat) (newText : String)
    (h : 2 ≤ (todos.filter (fun t => t.id == i)).length) :
    (∀ t ∈ deleteTodo todos i, t.id ≠ i) ∧
    totalCount (deleteTodo todos i) + (todos.filter (fun t => t.id == i)).length
      = totalCount todos ∧
    (∀ (j : Nat) (hj : j < todos.length) (hj2 : j < (toggleTodo todos i).length),
      (toggleTodo todos i).get ⟨j, hj2⟩
        = if (todos.get ⟨j, hj⟩).id = i
            then { todos.get ⟨j, hj⟩ with completed := !(todos.get ⟨j, hj⟩).completed }
            else todos.get ⟨j, hj⟩) ∧
    (∀ (j : Nat) (hj : j < todos.length) (hj2 : j < (editTodo todos i newText).length),
      (editTodo todos i newText).get ⟨j, hj2⟩
        = if (todos.get ⟨j, hj⟩).id = i
            then { todos.get ⟨j, hj⟩ with text := newText }
            else todos.get ⟨j, hj⟩) := by
  refine ⟨?_, ?_, ?_, ?_⟩
  · intro t ht
    rw [deleteTodo] at ht
    have := (List.mem_filter.mp ht).2
    simpa [bne] using this
  · have hl := deleteTodo_length todos i
    rw [totalCount, totalCount]
    omega
  · intro j hj hj2
    simp [toggleTodo, List.get_eq_getElem, List.getElem_map]
  · intro j hj hj2
    simp [editTodo, List.get_eq_getElem, List.getElem_map]

/-- C10 witness: at the duplicated-id store, delete removes both
matching records. -/
theorem C10_collision_semantics_witness :
    (∀ t ∈ deleteTodo dupTodos 5, t.id ≠ 5) ∧
      totalCount (deleteTodo dupTodos 5) + 2 = totalCount dupTodos := by
  have h := C10_collision_semantics dupTodos 5 "z" (by decide)
  have hlen : (dupTodos.filter (fun t => t.id == 5)).length = 2 := by decide
  refine ⟨h.1, ?_⟩
  rw [← hlen]
  exact h.2.1
